import Mathlib

/-!
Shallow embedding of `Deep_signatures_optimal_stopping.py`
(repository `Optimal_Stopping_with_signatures`).

The file models the two pricing engines of the source file:

* `DeepLongstaffSchwartzPricer.price` — backward-induction lower bound
  (exercise grids, the Standard and American training loops, the
  test-time evaluation scan and its discounting), and
* `DeepDualPricer.price` / `DualNetworkModel` — the dual upper bound
  (increment-derived discretization, index clipping, the final gather,
  and `build_network_dual`'s exercise-index selection), together with
* the compile/fit/predict fallback ladder shared by
  `LongstaffSchwartzModel` and `DualNetworkModel`.

Neural networks themselves are opaque here: a trained regressor's
prediction is an abstract function supplied as a parameter, the outcome
of a weight transfer (`set_weights` raising `ValueError` or not) is an
abstract Boolean function, and the per-step discount factor
`dtt = exp(-r*T/(N1+1))` is an abstract rational parameter.  Everything
the claims quantify over — index arithmetic, loop control flow, the
mutation of the `epochs` and `M_old` variables, the `regr` array of
optional models, the `10^8` placeholder, shape clipping — is embedded
directly from the Python source.  Machine floats are modelled as exact
rationals.
-/

namespace DeepSigStop

/-- One call to a regressor's `fit` during the backward induction:
`date` is the index the regressor is stored at (`k-1` in the source),
`nSamples` the number of training rows passed to `fit`, and
`epochsUsed` the value of the mutable `epochs` variable at that call. -/
structure FitRecord where
  date : ℕ
  nSamples : ℕ
  epochsUsed : ℕ
  deriving DecidableEq, Repr

/-- Entry `j` of the time grid `ttt = np.linspace(0, self.T, self.N1 + 1)`
(source line 105): `ttt[j] = j * T / N1`. -/
def ttt (T : ℚ) (N1 j : ℕ) : ℚ := (j : ℚ) * T / (N1 : ℚ)

/-- `subindex = [int((j+1)*N/self.N1) for j in range(self.N1)]`
(source line 103): the simulation-grid indices of the `N1` exercise dates. -/
def subindex (N N1 : ℕ) : List ℕ :=
  (List.range N1).map (fun j => (j + 1) * N / N1)

/-- `subindex2 = [int((j)*N/self.N1) for j in range(self.N1+1)]`
(source line 104, and line 377 with `N_actual` for `N`): the exercise
grid including time zero. -/
def subindex2 (N N1 : ℕ) : List ℕ :=
  (List.range (N1 + 1)).map (fun j => j * N / N1)

/-- Fuel-indexed rendering of the evaluation `while` loops
(source lines 265-267 and 274-277): starting from index `i`, advance by
one while the stop test is false, for at most `fuel` steps.  The callers
pass `fuel = N1 - 1`, which is enough for the guard `i < N1 - 1` to have
halted the loop, so the fuel never runs out before the real loop ends. -/
def scanLoop (stop : ℕ → Bool) : ℕ → ℕ → ℕ
  | 0, i => i
  | fuel + 1, i => if stop i then i else scanLoop stop fuel (i + 1)

/-- Stop test of the Standard-mode evaluation loop (source line 266):
the loop `while i < N1-1 and reg[m,i] > Payoff[m,i]` halts at `i` iff
this is true. -/
def stdStop (N1 : ℕ) (reg payoff : ℕ → ℚ) (i : ℕ) : Bool :=
  !(decide (i < N1 - 1) && decide (payoff i < reg i))

/-- Exercise index chosen for one test path in Standard mode
(source lines 264-267). -/
def stdExerciseIndex (N1 : ℕ) (reg payoff : ℕ → ℚ) : ℕ :=
  scanLoop (stdStop N1 reg payoff) (N1 - 1) 0

/-- Stop test of the American-mode evaluation loop (source line 276):
the loop `while i < N1-1 and (Payoff[m,i] == 0 or reg[m,i] > Payoff[m,i])`
halts at `i` iff this is true. -/
def amStop (N1 : ℕ) (reg payoff : ℕ → ℚ) (i : ℕ) : Bool :=
  !(decide (i < N1 - 1) && (decide (payoff i = 0) || decide (payoff i < reg i)))

/-- Exercise index chosen for one test path in American-Option mode
(source lines 274-277). -/
def amExerciseIndex (N1 : ℕ) (reg payoff : ℕ → ℚ) : ℕ :=
  scanLoop (amStop N1 reg payoff) (N1 - 1) 0

/-- Entry `reg[m, j]` of the test-time continuation matrix
(source lines 250-258): the matrix is zero-initialised with `N1`
columns; column `j < N1 - 1` is set to `10^8` when `regr[j]` is `None`
and otherwise to the regressor's prediction, which is abstracted as
`predT j`; column `N1 - 1` keeps its zero initialisation. -/
def regEntry (N1 : ℕ) (regr : List (Option Unit)) (predT : ℕ → ℚ) (j : ℕ) : ℚ :=
  if j < N1 - 1 then (if (regr.getD j none).isSome then predT j else 10 ^ 8) else 0

/-- The per-path test value assignment
`value_testing[m] = Payoff[m,i] * np.exp(-r * T * (ttt[i+1] - ttt[1]))`
(source lines 268 and 278), split into the payoff factor and the
exponent handed to `np.exp`. -/
def exercisePathParts (r T : ℚ) (N1 i : ℕ) (payoff : ℕ → ℚ) : ℚ × ℚ :=
  (payoff i, -(r * T * (ttt T N1 (i + 1) - ttt T N1 1)))

/-- Mutable state of the Standard-mode backward induction
(source lines 118-187): the `epochs` variable, the shrinking path count
`M_old`, the `value` vector, the `regr` array (`none` = Python `None`),
and a log of the `fit` calls made so far (most recent first). -/
structure StdState where
  epochs : ℕ
  mOld : ℕ
  value : List ℚ
  regr : List (Option Unit)
  fits : List FitRecord
  deriving DecidableEq, Repr

/-- `reversed(range(1, N1))` when applied to `N1 - 1`:
`downList n = [n, n-1, ..., 1]`. -/
def downList : ℕ → List ℕ
  | 0 => []
  | k + 1 => (k + 1) :: downList k

/-- One iteration of the Standard-mode training loop at exercise date `k`
(source lines 123-187).  `Mval` is the held-out validation count,
`dtt` the per-step discount factor `exp(-r*T/(N1+1))`, `tOk k` records
whether `set_weights(regr[k].get_weights())` succeeds (no `ValueError`),
`predS (k-1) m` the trained regressor's prediction on training path `m`,
and `payoffEx m c` the entry `Payoff_exercise_training[m, c]`. -/
def stdStep (N1 Mval : ℕ) (dtt : ℚ) (tOk : ℕ → Bool)
    (predS payoffEx : ℕ → ℕ → ℚ) (s : StdState) (k : ℕ) : StdState :=
  let mNew := s.mOld - Mval
  let valueNew := (s.value.take mNew).map (fun v => v * dtt)
  let epochs1 := if decide (k < N1 - 1) && tOk k then 1 else s.epochs
  let value1 := (List.range mNew).foldl
    (fun v m => if predS (k - 1) m ≤ payoffEx m (k - 1) then v.set m (payoffEx m (k - 1)) else v)
    valueNew
  { epochs := epochs1, mOld := mNew, value := value1,
    regr := s.regr.set (k - 1) (some ()),
    fits := ⟨k - 1, mNew, epochs1⟩ :: s.fits }

/-- The full Standard-mode backward induction (source lines 113-187):
`value` starts as the final-date payoff column, `regr` as
`[None] * (N1 - 1)`, `M_old` as the training path count `M`, and the
loop runs over `k = N1-1, ..., 1`. -/
def stdTrain (N1 M Mval E : ℕ) (dtt : ℚ) (tOk : ℕ → Bool)
    (predS payoffEx : ℕ → ℕ → ℚ) : StdState :=
  (downList (N1 - 1)).foldl (stdStep N1 Mval dtt tOk predS payoffEx)
    { epochs := E, mOld := M,
      value := (List.range M).map (fun m => payoffEx m (N1 - 1)),
      regr := List.replicate (N1 - 1) none, fits := [] }

/-- Mutable state of the American-Option training loop
(source lines 190-243). -/
structure AmState where
  epochs : ℕ
  value : List ℚ
  regr : List (Option Unit)
  fits : List FitRecord
  deriving DecidableEq, Repr

/-- `ITM = [m for m in range(M) if Payoff_exercise_training[m, col] > 0]`
(source line 196). -/
def itmList (M : ℕ) (payoffEx : ℕ → ℕ → ℚ) (col : ℕ) : List ℕ :=
  (List.range M).filter (fun m => decide (0 < payoffEx m col))

/-- One iteration of the American-Option training loop at date `j`
(source lines 194-243).  The result is `none` when the iteration raises:
if `j < N1 - 1` and `regr[j]` is `None` (date `j` was skipped), the
expression `regr[j].get_weights()` raises an uncaught `AttributeError`;
a raised-and-caught `ValueError` inside `set_weights` is the `tOk j =
false` case, which leaves `epochs` unchanged. -/
def amStep (N1 M : ℕ) (dtt : ℚ) (tOk : ℕ → Bool)
    (predA payoffEx : ℕ → ℕ → ℚ) (s : AmState) (j : ℕ) : Option AmState :=
  let value1 := s.value.map (fun v => v * dtt)
  let itm := itmList M payoffEx (j - 1)
  if itm.length ≤ 1 then some { s with value := value1 }
  else
    let transferredOpt : Option Bool :=
      if j < N1 - 1 then
        (if (s.regr.getD j none).isSome then some (tOk j) else none)
      else some false
    match transferredOpt with
    | none => none
    | some red =>
      let epochs1 := if red then 1 else s.epochs
      let value2 := itm.foldl
        (fun v m => if predA (j - 1) m ≤ payoffEx m (j - 1) then v.set m (payoffEx m (j - 1)) else v)
        value1
      some { epochs := epochs1, value := value2,
             regr := s.regr.set (j - 1) (some ()),
             fits := ⟨j - 1, itm.length, epochs1⟩ :: s.fits }

/-- The full American-Option backward induction (source lines 190-243),
returning `none` when an iteration raises an uncaught exception. -/
def amTrain (N1 M E : ℕ) (dtt : ℚ) (tOk : ℕ → Bool)
    (predA payoffEx : ℕ → ℕ → ℚ) : Option AmState :=
  (downList (N1 - 1)).foldlM (amStep N1 M dtt tOk predA payoffEx)
    { epochs := E,
      value := (List.range M).map (fun m => payoffEx m (N1 - 1)),
      regr := List.replicate (N1 - 1) none, fits := [] }

/-- A numpy 2-D array: a row count, a column count, and an entry map.
Reads past the stated bounds are the out-of-range accesses that numpy
turns into an `IndexError`. -/
structure NpMat where
  rows : ℕ
  cols : ℕ
  entry : ℕ → ℕ → ℚ

/-- Fancy column indexing `A[:, idxs]`: succeeds with the gathered
matrix iff every index is within the column bounds, as in numpy, where
any out-of-bounds index raises `IndexError`. -/
def npGatherCols (A : NpMat) (idxs : List ℕ) : Option NpMat :=
  if idxs.all (fun p => decide (p < A.cols)) then
    some ⟨A.rows, idxs.length, fun m q => A.entry m (idxs.getD q 0)⟩
  else none

/-- `np.max` of a nonempty list (callers guard the nonempty case). -/
def maxQ : List ℚ → ℚ
  | [] => 0
  | x :: xs => xs.foldl max x

/-- `np.mean` of a list of rationals. -/
def meanQ (l : List ℚ) : ℚ := l.foldl (· + ·) 0 / (l.length : ℚ)

/-- `subindex2`, computed from `N_actual` and clipped to it
(source lines 377-381), then restricted to the indices `< N_actual + 1`
(the `valid_indices` comprehension of source line 445). -/
def dualValidIdx (N1 nAct : ℕ) : List ℕ :=
  ((subindex2 nAct N1).map (fun idx => min idx nAct)).filter
    (fun idx => decide (idx < nAct + 1))

/-- Trim the rule output to `N_actual` columns when it has more
(source lines 435-437). -/
def mgTrim (nAct : ℕ) (MG : NpMat) : NpMat :=
  if nAct < MG.cols then ⟨MG.rows, nAct, MG.entry⟩ else MG

/-- `MG_with_zeros = np.concatenate((np.zeros((M2, 1)), MG), axis=-1)`
(source line 440), applied after trimming. -/
def mgWithZeros (nAct : ℕ) (MG : NpMat) : NpMat :=
  ⟨(mgTrim nAct MG).rows, (mgTrim nAct MG).cols + 1,
    fun m p => if p = 0 then 0 else (mgTrim nAct MG).entry m (p - 1)⟩

/-- The index/shape pipeline of `DeepDualPricer.price` after training
(source lines 359-450): `N_actual = dWsteps` is rederived from the
increment tensor's time dimension, `subindex2` is clipped to `N_actual`,
the rule output `MG` is trimmed when it has more than `N_actual`
columns, a zero column is prepended, indices `≥ N_actual + 1` are
filtered out, and the bound is the mean over paths of the max over the
surviving indices of `Payoff_testing - MG_with_zeros`.  The result is
`none` when a numpy operation raises: an out-of-bounds gather
(`IndexError`), a row-count mismatch in the subtraction, or a max over
an empty axis. -/
def dualUpperBound (N1 dWsteps : ℕ) (payoffTest MG : NpMat) : Option ℚ :=
  match npGatherCols payoffTest (dualValidIdx N1 dWsteps),
      npGatherCols (mgWithZeros dWsteps MG) (dualValidIdx N1 dWsteps) with
  | some pg, some gg =>
    if pg.rows = gg.rows then
      if 0 < (dualValidIdx N1 dWsteps).length then
        some (meanQ ((List.range pg.rows).map (fun m =>
          maxQ ((List.range (dualValidIdx N1 dWsteps).length).map
            (fun p => pg.entry m p - gg.entry m p)))))
      else none
    else none
  | _, _ => none

/-- Append copies of `pad` until the list has length `target`
(the `while len(valid_indices) < n_indices_needed` loop of source
lines 710-711). -/
def padTail (target pad : ℕ) (l : List ℕ) : List ℕ :=
  l ++ List.replicate (target - l.length) pad

/-- The exercise-date index list built by
`DualNetworkModel.build_network_dual` (source lines 693-711): with
`needed = n - 1` indices required and `n2 - 1` available, either the
evenly spaced `int(i * (n2-1) / needed)` for `i < needed`, or all of
`range(n2-1)` padded by repeating `n2 - 2`. -/
def buildValidIndices (n n2 : ℕ) : List ℕ :=
  let needed := n - 1
  if needed ≤ n2 - 1 then (List.range needed).map (fun i => i * (n2 - 1) / needed)
  else padTail needed (n2 - 2) (List.range (n2 - 1))

/-- The compile fallback ladder shared by `LongstaffSchwartzModel.compile`
(source lines 525-539) and `DualNetworkModel.compile` (732-745): try
eager compilation, fall back to standard compilation, and only when both
raise set the `compilation_failed` flag (returned here; the attribute is
absent, i.e. `false`, otherwise). -/
def compileFailed (eagerOk standardOk : Bool) : Bool :=
  if eagerOk then false else if standardOk then false else true

/-- `LongstaffSchwartzModel.predict` (source lines 564-578): in degraded
mode, or when the underlying `model.predict` raises (`modelOut = none`),
return `np.zeros((X.shape[0], 1))`. -/
def lsPredict (failed : Bool) (modelOut : Option (List (List ℚ))) (xRows : ℕ) :
    List (List ℚ) :=
  if failed then List.replicate xRows [0]
  else
    match modelOut with
    | some out => out
    | none => List.replicate xRows [0]

/-- `DualNetworkModel.predict` (source lines 770-788): in degraded mode,
or when `rule_model.predict` raises, return
`np.zeros((X[0].shape[0], X[0].shape[1] - 1))` — one fewer column than
the first input's time dimension `xTime`. -/
def dualPredict (failed : Bool) (ruleOut : Option (List (List ℚ))) (xRows xTime : ℕ) :
    List (List ℚ) :=
  if failed then List.replicate xRows (List.replicate (xTime - 1) 0)
  else
    match ruleOut with
    | some out => out
    | none => List.replicate xRows (List.replicate (xTime - 1) 0)

/-- Modelled from the claims' wording (refinement target, not source
code): the first index `i` in `{0, ..., N1-2}` satisfying `stop`, and
`N1 - 1` when none does. -/
def firstStopIdx (N1 : ℕ) (stop : ℕ → Bool) : ℕ :=
  ((List.range (N1 - 1)).find? stop).getD (N1 - 1)

/-- The claims' description of the Standard-mode evaluation: stop at the
first date whose continuation prediction is `≤` the immediate payoff. -/
def stdClaimIndex (N1 : ℕ) (reg payoff : ℕ → ℚ) : ℕ :=
  firstStopIdx N1 (fun i => decide (reg i ≤ payoff i))

/-- The claims' description of the American-mode evaluation: stop at the
first date whose payoff is strictly positive and whose continuation
prediction is `≤` the payoff. -/
def amClaimIndexPos (N1 : ℕ) (reg payoff : ℕ → ℚ) : ℕ :=
  firstStopIdx N1 (fun i => decide (0 < payoff i) && decide (reg i ≤ payoff i))

/-- The amended description of the American-mode evaluation: as
`amClaimIndexPos`, but with nonzero payoff in place of strictly
positive payoff, matching the source's `Payoff[m,i] == 0` test. -/
def amClaimIndexNe (N1 : ℕ) (reg payoff : ℕ → ℚ) : ℕ :=
  firstStopIdx N1 (fun i => decide (payoff i ≠ 0) && decide (reg i ≤ payoff i))

/-! ### Helper lemmas -/

/-- `find?` only depends on the predicate's values on the list. -/
theorem find?_congrOn {α : Type} (p q : α → Bool) :
    ∀ l : List α, (∀ x ∈ l, p x = q x) → l.find? p = l.find? q := by
  intro l
  induction l with
  | nil => intro _; rfl
  | cons a l ih =>
    intro h
    have ha : p a = q a := h a (by simp)
    cases hq : q a with
    | true => simp [List.find?, ha, hq]
    | false =>
      simp only [List.find?, ha, hq]
      exact ih (fun x hx => h x (by simp [hx]))

/-- The fuel-indexed while loop halts at the first index in
`[start, start + fuel)` whose stop test is true, and at `start + fuel`
when none is. -/
theorem scanLoop_eq_find (stop : ℕ → Bool) :
    ∀ (fuel start : ℕ),
      scanLoop stop fuel start = ((List.range' start fuel).find? stop).getD (start + fuel) := by
  intro fuel
  induction fuel with
  | zero => intro start; simp [scanLoop]
  | succ n ih =>
    intro start
    rw [List.range'_succ]
    cases hs : stop start with
    | true => simp [scanLoop, hs, List.find?]
    | false =>
      have harith : start + 1 + n = start + (n + 1) := by omega
      simp only [scanLoop, hs, Bool.false_eq_true, if_false, List.find?, ih (start + 1), harith]

/-- Negated Boolean strict-inequality test equals the reversed weak one. -/
theorem not_decide_lt (a b : ℚ) : (!decide (a < b)) = decide (b ≤ a) := by
  rw [← decide_not]
  exact decide_eq_decide.mpr not_lt

/-- Negated Boolean equality test equals the disequality test. -/
theorem not_decide_eq (a b : ℚ) : (!decide (a = b)) = decide (a ≠ b) := by
  rw [← decide_not]

/-- The Standard-mode evaluation loop finds the first date `i < N1-1`
with `reg i ≤ payoff i`, defaulting to `N1 - 1`. -/
theorem stdExerciseIndex_eq (N1 : ℕ) (reg payoff : ℕ → ℚ) :
    stdExerciseIndex N1 reg payoff = stdClaimIndex N1 reg payoff := by
  unfold stdExerciseIndex stdClaimIndex firstStopIdx
  rw [scanLoop_eq_find, List.range_eq_range']
  have hcong : (List.range' 0 (N1 - 1)).find? (stdStop N1 reg payoff)
      = (List.range' 0 (N1 - 1)).find? (fun i => decide (reg i ≤ payoff i)) := by
    apply find?_congrOn
    intro i hi
    have h1 : i < N1 - 1 := by
      have := List.mem_range'_1.mp hi
      omega
    simp only [stdStop]
    rw [decide_eq_true h1, Bool.true_and, not_decide_lt]
  rw [hcong, Nat.zero_add]

/-- The American-mode evaluation loop finds the first date `i < N1-1`
with `payoff i ≠ 0` and `reg i ≤ payoff i`, defaulting to `N1 - 1`. -/
theorem amExerciseIndex_eq (N1 : ℕ) (reg payoff : ℕ → ℚ) :
    amExerciseIndex N1 reg payoff = amClaimIndexNe N1 reg payoff := by
  unfold amExerciseIndex amClaimIndexNe firstStopIdx
  rw [scanLoop_eq_find, List.range_eq_range']
  have hcong : (List.range' 0 (N1 - 1)).find? (amStop N1 reg payoff)
      = (List.range' 0 (N1 - 1)).find?
          (fun i => decide (payoff i ≠ 0) && decide (reg i ≤ payoff i)) := by
    apply find?_congrOn
    intro i hi
    have h1 : i < N1 - 1 := by
      have := List.mem_range'_1.mp hi
      omega
    simp only [amStop]
    rw [decide_eq_true h1, Bool.true_and, Bool.not_or, not_decide_lt, not_decide_eq]
  rw [hcong, Nat.zero_add]

/-! ### Claim theorems -/

/-- Claim C3, counterexample: with `r = 1`, `T = 3`, `N1 = 3` and a test
path exercised at date `i = 1`, the code's per-path value is
`1 * exp(-3)` (the embedded exponent `-(r*T*(ttt[2]-ttt[1])) = -3`),
whereas the claim's value `payoff * exp(-r * t_i)` with
`t_1 = ttt[2] = 2` is `1 * exp(-2)`; they differ. -/
theorem C3_counterexample :
    stdExerciseIndex 3 (fun n => if n = 0 then 2 else 0) (fun _ => 1) = 1 ∧
    ((exercisePathParts 1 3 3 1 (fun _ => (1 : ℚ))).1 : ℝ) *
        Real.exp (((exercisePathParts 1 3 3 1 (fun _ => (1 : ℚ))).2 : ℚ) : ℝ) ≠
      (((fun _ => (1 : ℚ)) 1 : ℚ) : ℝ) * Real.exp (-(1 * ((ttt 3 3 (1 + 1) : ℚ) : ℝ))) := by
  constructor
  · norm_num [stdExerciseIndex, stdStop, scanLoop]
  · have h2 : (exercisePathParts 1 3 3 1 (fun _ => (1 : ℚ))).2 = -3 := by
      norm_num [exercisePathParts, ttt]
    have h1 : (exercisePathParts 1 3 3 1 (fun _ => (1 : ℚ))).1 = 1 := rfl
    have ht : ttt 3 3 (1 + 1) = 2 := by norm_num [ttt]
    rw [h1, h2, ht]
    norm_num [Real.exp_eq_exp]

/-- Claim C3, amended: for every test path the per-path value is the
payoff at the chosen date `i` times `exp` of the exponent
`-(r * T * (ttt[i+1] - ttt[1]))`, which simplifies to `-(r * T * ttt[i])`
= `-r * T^2 * i / N1` — time measured from the first exercise date and
scaled by an extra factor `T`, not `-r * t_i`. -/
theorem C3_theorem (r T : ℚ) (N1 i : ℕ) (payoff : ℕ → ℚ) :
    (exercisePathParts r T N1 i payoff).1 = payoff i ∧
    (exercisePathParts r T N1 i payoff).2 = -(r * T * ttt T N1 i) := by
  refine ⟨rfl, ?_⟩
  unfold exercisePathParts ttt
  push_cast
  ring

/-- Claim C4, counterexample: with `N1 = 2`, a negative payoff `-1` at
date 0 and continuation prediction `-2 ≤ -1`, the code stops at date 0
(its test is `payoff ≠ 0`), while the claim's rule (payoff strictly
positive) would skip to the final date 1. -/
theorem C4_counterexample :
    amExerciseIndex 2 (fun _ => -2) (fun n => if n = 0 then -1 else 5) = 0 ∧
    amClaimIndexPos 2 (fun _ => -2) (fun n => if n = 0 then -1 else 5) = 1 := by
  constructor
  · norm_num [amExerciseIndex, amStop, scanLoop]
  · norm_num [amClaimIndexPos, firstStopIdx, List.find?]

/-- Claim C4, amended: the Standard-mode scan stops at the first date
`i < N1-1` with continuation `≤` payoff (as claimed), and the
American-mode scan stops at the first date with payoff NONZERO (not
strictly positive) and continuation `≤` payoff; in both modes the
default is the final date `N1 - 1`. -/
theorem C4_theorem (N1 : ℕ) (reg payoff : ℕ → ℚ) :
    stdExerciseIndex N1 reg payoff = stdClaimIndex N1 reg payoff ∧
    amExerciseIndex N1 reg payoff = amClaimIndexNe N1 reg payoff :=
  ⟨stdExerciseIndex_eq N1 reg payoff, amExerciseIndex_eq N1 reg payoff⟩

/-- Claim C7: with `n = N1 + 1` exercise dates and `n2` discretization
points, `build_network_dual` produces `[0, ..., n2-2]` padded with
repeats of `n2 - 2` up to length `N1` when `N1` exceeds the `n2 - 1`
available indices (in particular `[0,1,2,2,2]` for `N1 = 5` with `3`
available), and the evenly spaced `int(i*(n2-1)/N1)` otherwise. -/
theorem C7_theorem (N1 n2 : ℕ) (h1 : 1 ≤ N1) (_hn2 : 2 ≤ n2) :
    (n2 - 1 < N1 →
      buildValidIndices (N1 + 1) n2 =
        List.range (n2 - 1) ++ List.replicate (N1 - (n2 - 1)) (n2 - 2) ∧
      (buildValidIndices (N1 + 1) n2).length = N1) ∧
    (N1 ≤ n2 - 1 →
      buildValidIndices (N1 + 1) n2 = (List.range N1).map (fun i => i * (n2 - 1) / N1)) ∧
    buildValidIndices 6 4 = [0, 1, 2, 2, 2] := by
  refine ⟨?_, ?_, by decide⟩
  · intro hlt
    have hneed : N1 + 1 - 1 = N1 := by omega
    constructor
    · unfold buildValidIndices padTail
      rw [hneed, if_neg (by omega)]
      simp
    · unfold buildValidIndices padTail
      rw [hneed, if_neg (by omega)]
      simp only [List.length_append, List.length_range, List.length_replicate]
      omega
  · intro hle
    unfold buildValidIndices
    have hneed : N1 + 1 - 1 = N1 := by omega
    rw [hneed, if_pos hle]

/-- Witness for C7 at `N1 = 5`, `n2 = 4`. -/
theorem C7_witness :
    (4 - 1 < 5 →
      buildValidIndices (5 + 1) 4 =
        List.range (4 - 1) ++ List.replicate (5 - (4 - 1)) (4 - 2) ∧
      (buildValidIndices (5 + 1) 4).length = 5) ∧
    (5 ≤ 4 - 1 →
      buildValidIndices (5 + 1) 4 = (List.range 5).map (fun i => i * (4 - 1) / 5)) ∧
    buildValidIndices 6 4 = [0, 1, 2, 2, 2] :=
  C7_theorem 5 4 (by decide) (by decide)

/-- Claim C8: when both compile attempts fail the degraded flag is set;
degraded `LongstaffSchwartzModel.predict` returns the all-zero
`(xRows, 1)` matrix, and degraded `DualNetworkModel.predict` returns the
all-zero matrix with one fewer column than the input's time dimension. -/
theorem C8_theorem (modelOut ruleOut : Option (List (List ℚ))) (xRows xTime : ℕ) :
    compileFailed false false = true ∧
    lsPredict (compileFailed false false) modelOut xRows = List.replicate xRows [0] ∧
    (lsPredict (compileFailed false false) modelOut xRows).length = xRows ∧
    dualPredict (compileFailed false false) ruleOut xRows xTime =
      List.replicate xRows (List.replicate (xTime - 1) 0) ∧
    (dualPredict (compileFailed false false) ruleOut xRows xTime).length = xRows := by
  refine ⟨rfl, rfl, ?_, rfl, ?_⟩ <;> simp [lsPredict, dualPredict, compileFailed]

/-- Claim C9, counterexample: for `N = 1` simulation steps and `N1 = 2`
exercise dates the derived grid is `[0, 0, 1]`, which is not strictly
increasing, refuting the claim for all `N ≥ 1`, `N1 ≥ 1`. -/
theorem C9_counterexample :
    subindex2 1 2 = [0, 0, 1] ∧ ¬ List.Pairwise (· < ·) (subindex2 1 2) := by
  constructor
  · decide
  · decide

/-- Claim C9, amended: for `1 ≤ N1 ≤ N` the grid
`[int(j*N/N1) for j in range(N1+1)]` is strictly increasing, has
`N1 + 1` entries, and stays `≤ N` (for `N < N1` strictness fails). -/
theorem C9_theorem (N N1 : ℕ) (h1 : 1 ≤ N1) (hN : N1 ≤ N) :
    List.Pairwise (· < ·) (subindex2 N N1) ∧
    (subindex2 N N1).length = N1 + 1 ∧
    ∀ x ∈ subindex2 N N1, x ≤ N := by
  refine ⟨?_, by simp [subindex2], ?_⟩
  · unfold subindex2
    rw [List.pairwise_map]
    refine (List.pairwise_lt_range (N1 + 1)).imp ?_
    intro a b hab
    have hb : a + 1 ≤ b := hab
    have hmul : a * N + N1 ≤ b * N := by
      have h2 : (a + 1) * N ≤ b * N := Nat.mul_le_mul_right N hb
      have h3 : a * N + N1 ≤ a * N + N := by omega
      have h4 : a * N + N = (a + 1) * N := by ring
      omega
    have h5 := Nat.div_le_div_right (c := N1) hmul
    rw [Nat.add_div_right _ (by omega : 0 < N1)] at h5
    omega
  · intro x hx
    simp only [subindex2, List.mem_map, List.mem_range] at hx
    obtain ⟨j, hj, rfl⟩ := hx
    calc j * N / N1 ≤ N1 * N / N1 :=
          Nat.div_le_div_right (Nat.mul_le_mul_right N (by omega))
      _ = N := Nat.mul_div_cancel_left N (by omega)

/-- Witness for C9 at `N = 4`, `N1 = 2`. -/
theorem C9_witness :
    List.Pairwise (· < ·) (subindex2 4 2) ∧
    (subindex2 4 2).length = 2 + 1 ∧
    ∀ x ∈ subindex2 4 2, x ≤ 4 :=
  C9_theorem 4 2 (by decide) (by decide)

/-! ### Invariants of the two training loops -/

/-- Membership in the reversed loop range `[n, ..., 1]`. -/
theorem mem_downList {k : ℕ} : ∀ {n : ℕ}, k ∈ downList n ↔ 1 ≤ k ∧ k ≤ n := by
  intro n
  induction n with
  | zero => simp [downList]; omega
  | succ n ih =>
    simp only [downList, List.mem_cons, ih]
    omega

/-- One Standard step keeps the regressor array's length. -/
theorem stdStep_regr_length (N1 Mval : ℕ) (dtt : ℚ) (tOk : ℕ → Bool)
    (predS payoffEx : ℕ → ℕ → ℚ) (s : StdState) (k : ℕ) :
    ((stdStep N1 Mval dtt tOk predS payoffEx s k).regr).length = s.regr.length := by
  simp [stdStep]

/-- A trained entry stays trained through one Standard step. -/
theorem stdStep_trained (N1 Mval : ℕ) (dtt : ℚ) (tOk : ℕ → Bool)
    (predS payoffEx : ℕ → ℕ → ℚ) (s : StdState) (k j : ℕ)
    (h : s.regr[j]? = some (some ())) :
    ((stdStep N1 Mval dtt tOk predS payoffEx s k).regr)[j]? = some (some ()) := by
  have hlen : j < s.regr.length := (List.getElem?_eq_some.mp h).1
  simp only [stdStep]
  by_cases hkj : k - 1 = j
  · subst hkj
    exact List.getElem?_set_eq_of_lt _ hlen
  · rw [List.getElem?_set_ne hkj]
    exact h

/-- After folding the Standard step over `ks`, entry `j` is trained
whenever `j + 1` occurs in `ks` or it was trained already. -/
theorem stdFoldl_trained (N1 Mval : ℕ) (dtt : ℚ) (tOk : ℕ → Bool)
    (predS payoffEx : ℕ → ℕ → ℚ) :
    ∀ (ks : List ℕ) (s : StdState) (j : ℕ),
      j < s.regr.length →
      (j + 1 ∈ ks ∨ s.regr[j]? = some (some ())) →
      ((ks.foldl (stdStep N1 Mval dtt tOk predS payoffEx) s).regr)[j]? = some (some ()) := by
  intro ks
  induction ks with
  | nil =>
    intro s j _ h
    rcases h with h | h
    · simp at h
    · simpa using h
  | cons a ks ih =>
    intro s j hlen h
    rw [List.foldl_cons]
    have hlen2 : j < ((stdStep N1 Mval dtt tOk predS payoffEx s a).regr).length := by
      rw [stdStep_regr_length]; exact hlen
    rcases h with h | h
    · rcases List.mem_cons.mp h with h1 | h1
      · apply ih _ _ hlen2
        right
        simp only [stdStep]
        have ha : a - 1 = j := by omega
        rw [ha]
        exact List.getElem?_set_eq_of_lt _ hlen
      · exact ih _ _ hlen2 (Or.inl h1)
    · exact ih _ _ hlen2 (Or.inr (stdStep_trained N1 Mval dtt tOk predS payoffEx s a j h))

/-- After the Standard fold, the epoch budget recorded at any date whose
transfer was attempted and succeeded is `1`. -/
theorem stdFoldl_fits_epochs (N1 Mval : ℕ) (dtt : ℚ) (tOk : ℕ → Bool)
    (predS payoffEx : ℕ → ℕ → ℚ) :
    ∀ (ks : List ℕ) (s : StdState),
      (∀ rec ∈ s.fits, rec.date + 1 < N1 - 1 → tOk (rec.date + 1) = true → rec.epochsUsed = 1) →
      (∀ k ∈ ks, 1 ≤ k) →
      ∀ rec ∈ (ks.foldl (stdStep N1 Mval dtt tOk predS payoffEx) s).fits,
        rec.date + 1 < N1 - 1 → tOk (rec.date + 1) = true → rec.epochsUsed = 1 := by
  intro ks
  induction ks with
  | nil => intro s hs _; exact hs
  | cons a ks ih =>
    intro s hs hks
    rw [List.foldl_cons]
    refine ih _ ?_ (fun k hk => hks k (List.mem_cons_of_mem a hk))
    intro rec hrec hd htok
    have ha1 : 1 ≤ a := hks a (List.mem_cons_self a ks)
    simp only [stdStep] at hrec
    rcases List.mem_cons.mp hrec with h | h
    · subst h
      dsimp only at hd htok ⊢
      have ha : a - 1 + 1 = a := by omega
      rw [ha] at hd htok
      simp [decide_eq_true hd, htok]
    · exact hs rec h hd htok

/-- After the American fold completes, the epoch budget recorded at any
date whose transfer was attempted and succeeded is `1`. -/
theorem amFoldlM_fits_epochs (N1 M : ℕ) (dtt : ℚ) (tOk : ℕ → Bool)
    (predA payoffEx : ℕ → ℕ → ℚ) :
    ∀ (ks : List ℕ) (s s' : AmState),
      (∀ rec ∈ s.fits, rec.date + 1 < N1 - 1 → tOk (rec.date + 1) = true → rec.epochsUsed = 1) →
      (∀ k ∈ ks, 1 ≤ k) →
      ks.foldlM (amStep N1 M dtt tOk predA payoffEx) s = some s' →
      ∀ rec ∈ s'.fits,
        rec.date + 1 < N1 - 1 → tOk (rec.date + 1) = true → rec.epochsUsed = 1 := by
  intro ks
  induction ks with
  | nil =>
    intro s s' hs _ hf
    simp only [List.foldlM_nil, pure, Option.some.injEq] at hf
    subst hf
    exact hs
  | cons a ks ih =>
    intro s s' hs hks hf
    rw [List.foldlM_cons] at hf
    obtain ⟨s1, h1, h2⟩ := Option.bind_eq_some.mp hf
    refine ih s1 s' ?_ (fun k hk => hks k (List.mem_cons_of_mem a hk)) h2
    intro rec hrec hd htok
    have ha1 : 1 ≤ a := hks a (List.mem_cons_self a ks)
    simp only [amStep] at h1
    by_cases hskip : (itmList M payoffEx (a - 1)).length ≤ 1
    · rw [if_pos hskip] at h1
      have hval := Option.some.inj h1
      rw [← hval] at hrec
      exact hs rec hrec hd htok
    · rw [if_neg hskip] at h1
      by_cases hd2 : a < N1 - 1
      · rw [if_pos hd2] at h1
        by_cases hS : (s.regr.getD a none).isSome
        · rw [if_pos hS] at h1
          simp only [Option.some.injEq] at h1
          rw [← h1] at hrec
          rcases List.mem_cons.mp hrec with h | h
          · subst h
            dsimp only at hd htok ⊢
            have ha : a - 1 + 1 = a := by omega
            rw [ha] at htok
            simp [htok]
          · exact hs rec h hd htok
        · rw [if_neg hS] at h1
          exact Option.noConfusion h1
      · rw [if_neg hd2] at h1
        simp only [Option.some.injEq] at h1
        rw [← h1] at hrec
        rcases List.mem_cons.mp hrec with h | h
        · subst h
          dsimp only at hd
          have ha : a - 1 + 1 = a := by omega
          rw [ha] at hd
          exact absurd hd hd2
        · exact hs rec h hd htok

/-- After the Standard fold, the sample count recorded at each date
follows the shrinking path count `M - (N1 - 1 - date) * Mval`. -/
theorem stdFoldl_fits_samples (N1 M Mval : ℕ) (dtt : ℚ) (tOk : ℕ → Bool)
    (predS payoffEx : ℕ → ℕ → ℚ) :
    ∀ (n : ℕ) (s : StdState), n ≤ N1 - 1 →
      s.mOld = M - (N1 - 1 - n) * Mval →
      (∀ rec ∈ s.fits, rec.nSamples = M - (N1 - 1 - rec.date) * Mval) →
      ∀ rec ∈ ((downList n).foldl (stdStep N1 Mval dtt tOk predS payoffEx) s).fits,
        rec.nSamples = M - (N1 - 1 - rec.date) * Mval := by
  intro n
  induction n with
  | zero => intro s _ _ hs; simpa [downList] using hs
  | succ n ih =>
    intro s hn hm hs
    rw [show downList (n + 1) = (n + 1) :: downList n from rfl, List.foldl_cons]
    have hmNew : s.mOld - Mval = M - (N1 - 1 - n) * Mval := by
      rw [hm]
      have ha : N1 - 1 - n = (N1 - 1 - (n + 1)) + 1 := by omega
      rw [ha, Nat.succ_mul, Nat.sub_sub]
    apply ih
    · omega
    · simp only [stdStep]
      exact hmNew
    · intro rec hrec
      simp only [stdStep] at hrec
      rcases List.mem_cons.mp hrec with h | h
      · subst h
        dsimp only
        rw [Nat.add_sub_cancel]
        exact hmNew
      · exact hs rec h

/-- After a completed American fold, the regressor at a date whose
in-the-money count is `≤ 1` is still `None`. -/
theorem amFoldlM_regr_none (N1 M : ℕ) (dtt : ℚ) (tOk : ℕ → Bool)
    (predA payoffEx : ℕ → ℕ → ℚ) (j : ℕ) (hj1 : 1 ≤ j)
    (hitm : (itmList M payoffEx (j - 1)).length ≤ 1) :
    ∀ (ks : List ℕ) (s s' : AmState),
      (∀ k ∈ ks, 1 ≤ k) →
      s.regr[j - 1]? = some none →
      ks.foldlM (amStep N1 M dtt tOk predA payoffEx) s = some s' →
      s'.regr[j - 1]? = some none := by
  intro ks
  induction ks with
  | nil =>
    intro s s' _ hr hf
    simp only [List.foldlM_nil, pure, Option.some.injEq] at hf
    subst hf
    exact hr
  | cons a ks ih =>
    intro s s' hks hr hf
    rw [List.foldlM_cons] at hf
    obtain ⟨s1, h1, h2⟩ := Option.bind_eq_some.mp hf
    refine ih s1 s' (fun k hk => hks k (List.mem_cons_of_mem a hk)) ?_ h2
    have ha1 : 1 ≤ a := hks a (List.mem_cons_self a ks)
    simp only [amStep] at h1
    by_cases hskip : (itmList M payoffEx (a - 1)).length ≤ 1
    · rw [if_pos hskip] at h1
      have hval := Option.some.inj h1
      rw [← hval]
      exact hr
    · rw [if_neg hskip] at h1
      have haj : a ≠ j := fun h => hskip (h ▸ hitm)
      by_cases hd2 : a < N1 - 1
      · rw [if_pos hd2] at h1
        by_cases hS : (s.regr.getD a none).isSome
        · rw [if_pos hS] at h1
          simp only [Option.some.injEq] at h1
          rw [← h1]
          dsimp only
          rw [List.getElem?_set_ne (by omega : a - 1 ≠ j - 1)]
          exact hr
        · rw [if_neg hS] at h1
          exact Option.noConfusion h1
      · rw [if_neg hd2] at h1
        simp only [Option.some.injEq] at h1
        rw [← h1]
        dsimp only
        rw [List.getElem?_set_ne (by omega : a - 1 ≠ j - 1)]
        exact hr

/-! ### Claims about the training loops -/

/-- Claim C1, counterexample: a concrete American-Option run with
`N1 = 3`, two always-in-the-money training paths and a successful weight
transfer at date `j = 1 < N1 - 1` fits that date with an epoch budget of
`1`, not the configured `100`: the code reduces epochs after a transfer
in American mode too. -/
theorem C1_counterexample :
    (amTrain 3 2 100 1 (fun _ => true) (fun _ _ => 2) (fun _ _ => 1)).map AmState.fits =
      some [⟨0, 2, 1⟩, ⟨1, 2, 100⟩] := by
  norm_num [amTrain, amStep, downList, itmList, List.foldlM_cons, List.foldlM_nil,
    List.range_succ, List.filter]

/-- Claim C1, amended: in BOTH modes, every `fit` at a date `k - 1` with
`k < N1 - 1` whose weight transfer from the date-`k` regressor succeeds
uses an epoch budget of `1` (for American mode, on any run that
completes without an uncaught exception). -/
theorem C1_theorem (N1 M Mval E : ℕ) (dtt : ℚ) (tOk : ℕ → Bool)
    (predS predA payoffEx : ℕ → ℕ → ℚ) :
    (∀ rec ∈ (stdTrain N1 M Mval E dtt tOk predS payoffEx).fits,
        rec.date + 1 < N1 - 1 → tOk (rec.date + 1) = true → rec.epochsUsed = 1) ∧
    (∀ s, amTrain N1 M E dtt tOk predA payoffEx = some s →
        ∀ rec ∈ s.fits,
          rec.date + 1 < N1 - 1 → tOk (rec.date + 1) = true → rec.epochsUsed = 1) := by
  constructor
  · unfold stdTrain
    exact stdFoldl_fits_epochs N1 Mval dtt tOk predS payoffEx _ _ (by simp)
      (fun k hk => (mem_downList.mp hk).1)
  · intro s hs
    exact amFoldlM_fits_epochs N1 M dtt tOk predA payoffEx _ _ s (by simp)
      (fun k hk => (mem_downList.mp hk).1) hs

/-- Witness for C1: the Standard run `N1 = 3`, `M = 10` records epoch
budget `1` at date `0`, whose transfer from date `1` succeeded. -/
theorem C1_witness :
    ((stdTrain 3 10 0 100 1 (fun _ => true) (fun _ _ => 0) (fun _ _ => 1)).fits.getD 0
        ⟨0, 0, 0⟩).epochsUsed = 1 := by
  have hf : (stdTrain 3 10 0 100 1 (fun _ => true) (fun _ _ => 0) (fun _ _ => 1)).fits =
      [⟨0, 10, 1⟩, ⟨1, 10, 100⟩] := by
    norm_num [stdTrain, stdStep, downList, List.range_succ, List.foldl]
  rw [hf]
  exact (C1_theorem 3 10 0 100 1 (fun _ => true) (fun _ _ => 0) (fun _ _ => 0)
    (fun _ _ => 1)).1 ⟨0, 10, 1⟩ (by rw [hf]; exact List.mem_cons_self _ _)
    (by norm_num) rfl

/-- Claim C2, counterexample: Standard mode with `N1 = 3`, `M = 10`,
`M_val = 2` fits `8` paths at the first regression date but only `6` at
the next — not `M - M_val = 8` at every date. -/
theorem C2_counterexample :
    ((stdTrain 3 10 2 100 1 (fun _ => true) (fun _ _ => 0) (fun _ _ => 1)).fits.map
      FitRecord.nSamples) = [6, 8] ∧ (6 : ℕ) ≠ 10 - 2 := by
  constructor
  · norm_num [stdTrain, stdStep, downList, List.range_succ, List.foldl]
  · decide

/-- Claim C2, amended: in Standard mode the date processed `t`-th in the
backward loop (date index `k - 1`, `t = N1 - 1 - (k - 1)`) is fit on
`M - t * M_val` paths: a fresh validation tail of size `M_val` is carved
off the remaining paths at every date, so the fit set shrinks by `M_val`
per date (the claimed `M - M_val` holds only at the first date). -/
theorem C2_theorem (N1 M Mval E : ℕ) (dtt : ℚ) (tOk : ℕ → Bool)
    (predS payoffEx : ℕ → ℕ → ℚ) (_hM : (N1 - 1) * Mval ≤ M) :
    ∀ rec ∈ (stdTrain N1 M Mval E dtt tOk predS payoffEx).fits,
      rec.nSamples = M - (N1 - 1 - rec.date) * Mval := by
  unfold stdTrain
  apply stdFoldl_fits_samples N1 M Mval dtt tOk predS payoffEx (N1 - 1) _ le_rfl
  · simp
  · simp

/-- Witness for C2: in the `N1 = 3`, `M = 10`, `M_val = 2` run, the
record at position 1 (date 1, the first date processed) holds
`10 - (3 - 1 - 1) * 2 = 8` samples. -/
theorem C2_witness :
    ((stdTrain 3 10 2 100 1 (fun _ => true) (fun _ _ => 0) (fun _ _ => 1)).fits.getD 1
        ⟨0, 0, 0⟩).nSamples =
      10 - (3 - 1 - ((stdTrain 3 10 2 100 1 (fun _ => true) (fun _ _ => 0)
        (fun _ _ => 1)).fits.getD 1 ⟨0, 0, 0⟩).date) * 2 := by
  have hf : (stdTrain 3 10 2 100 1 (fun _ => true) (fun _ _ => 0) (fun _ _ => 1)).fits =
      [⟨0, 6, 1⟩, ⟨1, 8, 100⟩] := by
    norm_num [stdTrain, stdStep, downList, List.range_succ, List.foldl]
  exact C2_theorem 3 10 2 100 1 (fun _ => true) (fun _ _ => 0) (fun _ _ => 1)
    (by norm_num) _ (by rw [hf]; simp)

/-- Claim C5, counterexample: a skipped American date leaves its
regressor `None` (first conjunct), but evaluation treats it as the
finite placeholder `10^8`, not `+∞`: a test path with payoff
`3·10^8 ≥ 10^8` at the skipped date 0 is exercised THERE (index 0), so
the scan does not continue past the date for every payoff value. -/
theorem C5_counterexample :
    amTrain 2 1 100 1 (fun _ => true) (fun _ _ => 2) (fun _ c => if c = 0 then 0 else 1) =
      some ⟨100, [1], [none], []⟩ ∧
    amExerciseIndex 2 (regEntry 2 [none] (fun _ => 0))
      (fun c => if c = 0 then 300000000 else 1) = 0 := by
  constructor
  · norm_num [amTrain, amStep, downList, itmList, List.foldlM_cons, List.foldlM_nil,
      List.range_succ, List.filter]
  · norm_num [amExerciseIndex, amStop, scanLoop, regEntry]

/-- Claim C5, amended: on a completed American run, a date `j` with at
most one in-the-money training path leaves `regr[j-1] = None`; at
evaluation such a date contributes the continuation value `10^8` (not
`+∞`), and the scan continues past it exactly when the test payoff there
is below `10^8` (in particular for every payoff `< 10^8`; a payoff
`≥ 10^8` stops the scan). -/
theorem C5_theorem (N1 M E : ℕ) (dtt : ℚ) (tOk : ℕ → Bool)
    (predA payoffEx : ℕ → ℕ → ℚ) (s : AmState)
    (hs : amTrain N1 M E dtt tOk predA payoffEx = some s)
    (j : ℕ) (hj1 : 1 ≤ j) (hj2 : j ≤ N1 - 1)
    (hitm : (itmList M payoffEx (j - 1)).length ≤ 1)
    (predT : ℕ → ℚ) (payoff : ℕ → ℚ) (hpay : payoff (j - 1) < 10 ^ 8) :
    s.regr[j - 1]? = some none ∧
    regEntry N1 s.regr predT (j - 1) = 10 ^ 8 ∧
    amStop N1 (regEntry N1 s.regr predT) payoff (j - 1) = false := by
  have hjlt : j - 1 < N1 - 1 := by omega
  have hnone : s.regr[j - 1]? = some none := by
    unfold amTrain at hs
    exact amFoldlM_regr_none N1 M dtt tOk predA payoffEx j hj1 hitm _ _ s
      (fun k hk => (mem_downList.mp hk).1)
      (by rw [List.getElem?_replicate, if_pos hjlt]) hs
  have hreg : regEntry N1 s.regr predT (j - 1) = 10 ^ 8 := by
    unfold regEntry
    rw [if_pos hjlt, List.getD_eq_getElem?_getD, hnone]
    rfl
  refine ⟨hnone, hreg, ?_⟩
  simp [amStop, hreg, hjlt, hpay]

/-- Witness for C5: the `N1 = 2`, `M = 1` American run that skips its
only regression date, evaluated with test payoff `5 < 10^8`. -/
theorem C5_witness :
    (⟨100, [1], [none], []⟩ : AmState).regr[1 - 1]? = some none ∧
    regEntry 2 (⟨100, [1], [none], []⟩ : AmState).regr (fun _ => 0) (1 - 1) = 10 ^ 8 ∧
    amStop 2 (regEntry 2 (⟨100, [1], [none], []⟩ : AmState).regr (fun _ => 0))
      (fun _ => 5) (1 - 1) = false := by
  have hs : amTrain 2 1 100 1 (fun _ => true) (fun _ _ => 2)
      (fun _ c => if c = 0 then 0 else 1) = some ⟨100, [1], [none], []⟩ := by
    norm_num [amTrain, amStep, downList, itmList, List.foldlM_cons, List.foldlM_nil,
      List.range_succ, List.filter]
  exact C5_theorem 2 1 100 1 (fun _ => true) (fun _ _ => 2)
    (fun _ c => if c = 0 then 0 else 1) ⟨100, [1], [none], []⟩ hs 1 (by decide) (by decide)
    (by decide) (fun _ => 0) (fun _ => 5) (by norm_num)

/-- Claim C10: after the Standard-mode backward induction, every date
`j < N1 - 1` has a trained regressor, so the evaluation's `10^8`
fallback for a missing regressor is unreachable in Standard mode:
`reg[·, j]` is always the regressor's prediction. -/
theorem C10_theorem (N1 M Mval E : ℕ) (dtt : ℚ) (tOk : ℕ → Bool)
    (predS payoffEx : ℕ → ℕ → ℚ) (predT : ℕ → ℚ) (j : ℕ) (hj : j < N1 - 1) :
    (stdTrain N1 M Mval E dtt tOk predS payoffEx).regr[j]? = some (some ()) ∧
    regEntry N1 (stdTrain N1 M Mval E dtt tOk predS payoffEx).regr predT j = predT j := by
  have htr : (stdTrain N1 M Mval E dtt tOk predS payoffEx).regr[j]? = some (some ()) := by
    unfold stdTrain
    apply stdFoldl_trained
    · simpa using hj
    · exact Or.inl (mem_downList.mpr ⟨by omega, by omega⟩)
  refine ⟨htr, ?_⟩
  unfold regEntry
  rw [if_pos hj, List.getD_eq_getElem?_getD, htr]
  rfl

/-! ### Claim C6: the dual pricer's dimension-mismatch policy -/

/-- A fancy gather succeeds when all indices are within the columns. -/
theorem npGatherCols_some (A : NpMat) (idxs : List ℕ) (h : ∀ x ∈ idxs, x < A.cols) :
    npGatherCols A idxs = some ⟨A.rows, idxs.length, fun m q => A.entry m (idxs.getD q 0)⟩ := by
  unfold npGatherCols
  rw [if_pos (List.all_eq_true.mpr (fun x hx => decide_eq_true (h x hx)))]

/-- Every surviving dual index is `< N_actual + 1`. -/
theorem dualValidIdx_lt (N1 nAct : ℕ) : ∀ x ∈ dualValidIdx N1 nAct, x < nAct + 1 := by
  intro x hx
  unfold dualValidIdx at hx
  exact of_decide_eq_true (List.mem_filter.mp hx).2

/-- The surviving dual index list is nonempty (it keeps the time-zero
index `0`). -/
theorem dualValidIdx_length_pos (N1 nAct : ℕ) :
    0 < (dualValidIdx N1 nAct).length := by
  have h0 : 0 ∈ dualValidIdx N1 nAct := by
    unfold dualValidIdx
    apply List.mem_filter.mpr
    constructor
    · apply List.mem_map.mpr
      refine ⟨0, ?_, by simp⟩
      unfold subindex2
      exact List.mem_map.mpr ⟨0, by simp, by simp⟩
    · simp
  exact List.length_pos.mpr (List.ne_nil_of_mem h0)

/-- Column count of the zero-prepended, trimmed rule output when the raw
rule output has at least `N_actual` columns. -/
theorem mgWithZeros_cols (nAct : ℕ) (MG : NpMat) (hm : nAct ≤ MG.cols) :
    (mgWithZeros nAct MG).cols = nAct + 1 := by
  unfold mgWithZeros mgTrim
  split
  · rfl
  · simp only []
    omega

/-- Row count of the zero-prepended, trimmed rule output. -/
theorem mgWithZeros_rows (nAct : ℕ) (MG : NpMat) :
    (mgWithZeros nAct MG).rows = MG.rows := by
  unfold mgWithZeros mgTrim
  split <;> rfl

/-- Claim C6, counterexample: `N1 = 1` with an increment tensor of `2`
time steps (so `N_actual = 2`) and a payoff tensor of only `2` time
columns (both disagreeing with any configured `N ≥ 3`): the final gather
asks for payoff column `2`, which is out of bounds, and the computation
raises an `IndexError` (modelled as `none`) instead of completing. -/
theorem C6_counterexample :
    dualUpperBound 1 2 ⟨1, 2, fun _ _ => 1⟩ ⟨1, 2, fun _ _ => 0⟩ = none := by
  norm_num [dualUpperBound, dualValidIdx, mgWithZeros, mgTrim, subindex2, npGatherCols,
    List.range_succ, List.filter, meanQ, maxQ]

/-- Claim C6, amended: the clipping keeps every gathered index `≤
N_actual`, so the evaluation completes whenever the payoff tensor has at
least `N_actual + 1` time columns, the rule output has at least
`N_actual` columns, and the two have equally many rows; with fewer
payoff columns the final gather is out of bounds and raises. -/
theorem C6_theorem (N1 dWs : ℕ) (P MG : NpMat) (_h1 : 1 ≤ N1)
    (hp : dWs + 1 ≤ P.cols) (hm : dWs ≤ MG.cols) (hr : P.rows = MG.rows) :
    (dualUpperBound N1 dWs P MG).isSome := by
  have hidx := dualValidIdx_lt N1 dWs
  have hg1 := npGatherCols_some P (dualValidIdx N1 dWs)
    (fun x hx => lt_of_lt_of_le (hidx x hx) hp)
  have hg2 := npGatherCols_some (mgWithZeros dWs MG) (dualValidIdx N1 dWs)
    (fun x hx => by rw [mgWithZeros_cols dWs MG hm]; exact hidx x hx)
  have hrows : P.rows = (mgWithZeros dWs MG).rows := by rw [mgWithZeros_rows]; exact hr
  unfold dualUpperBound
  rw [hg1, hg2]
  dsimp only
  rw [if_pos hrows, if_pos (dualValidIdx_length_pos N1 dWs)]
  rfl

/-- Witness for C6 at `N1 = 1`, `N_actual = 2`, payoff with 3 columns. -/
theorem C6_witness :
    (dualUpperBound 1 2 ⟨1, 3, fun _ _ => 1⟩ ⟨1, 2, fun _ _ => 0⟩).isSome :=
  C6_theorem 1 2 ⟨1, 3, fun _ _ => 1⟩ ⟨1, 2, fun _ _ => 0⟩ (by decide) (by decide)
    (by decide) rfl

/-- Witness for C10 at `N1 = 3`, `j = 1`. -/
theorem C10_witness :
    (stdTrain 3 2 0 5 1 (fun _ => true) (fun _ _ => 0) (fun _ _ => 1)).regr[1]? =
      some (some ()) ∧
    regEntry 3 (stdTrain 3 2 0 5 1 (fun _ => true) (fun _ _ => 0) (fun _ _ => 1)).regr
      (fun _ => 7) 1 = 7 :=
  C10_theorem 3 2 0 5 1 (fun _ => true) (fun _ _ => 0) (fun _ _ => 1) (fun _ => 7) 1
    (by decide)

end DeepSigStop
